import Mathlib

/-!
Verification development for the HMM tagger in `hw-tag/code/hmm.py`.

The source operates on PyTorch float tensors in log space.  We embed it in
exact rational arithmetic: every log-space quantity `x` of the source is
represented here by its exponential `exp x : ℚ` (with `exp (-inf) = 0`), which
maps the source's operations exactly:

  * `logsumexp` over a set of values  ↦  sum of the represented values,
  * `+` of log values                 ↦  `*` of the represented values,
  * `torch.max` of log values        ↦  `max` of the represented values
    (exp is strictly monotone),
  * subtracting a scaling offset     ↦  dividing by the represented offset,
  * `torch.log p` for `p > 0`        ↦  `p` itself,
  * `log (M + 1e-10)`                ↦  `M + epsQ` with `epsQ = 1/10^10`.

Tag indexing convention (from the source's slices `[:eos_t]`,
`[eos_t:bos_t]`, `[eos_t:]`, and from the vocabulary contract that the last
two ids are the EOS and BOS sentinels): there are `m` ordinary tags
`0, …, m-1`, then `eos_t = m`, then `bos_t = m + 1`, so `k = m + 2`.

Probability matrices are total functions `Fin (m+2) → Fin (m+2) → ℚ` (for A)
and `Fin (m+2) → Fin V → ℚ` (for B).  Sentences are lists of
`(word id, optional tag id)` pairs with raw `ℕ` ids, as in the source, where
out-of-range ids raise an indexing error; the embedding returns an
`Except`-style error in exactly those places.
-/

open BigOperators

/-- The constant `1e-10` that the source adds before taking logs
(`torch.log(self.A + 1e-10)` and friends), as an exact rational. -/
def epsQ : ℚ := 1 / 10000000000

/-- The `allclose` tolerance used by the source's final `M_step` assertions:
`torch.allclose(x, ones, rtol=1e-5)` accepts `|x - 1| ≤ atol + rtol * 1`
with the default `atol = 1e-8`. -/
def tolClose : ℚ := 1 / 100000 + 1 / 100000000

/-- Index of the BOS sentinel tag: the last of the `m + 2` tags. -/
def bosT (m : ℕ) : Fin (m + 2) := ⟨m + 1, by omega⟩

/-- Index of the EOS sentinel tag: the second-to-last of the `m + 2` tags. -/
def eosT (m : ℕ) : Fin (m + 2) := ⟨m, by omega⟩

/-- Emission lookup `B[t, w]` for a raw word id `w : ℕ`.  The source indexes
the tensor directly and a well-formed sentence only ever supplies `w < V`;
for an out-of-range id (where the source would raise `IndexError`) we return
0, and the call sites that can actually receive such an id guard explicitly. -/
def Bat {m V : ℕ} (B : Fin (m + 2) → Fin V → ℚ) (t : Fin (m + 2)) (w : ℕ) : ℚ :=
  if h : w < V then B t ⟨w, h⟩ else 0

/-- Add `d` to the single cell `(i, j)` of a matrix (the embedding of
`M[i, j] += d`). -/
def bump {a b : ℕ} (M : Fin a → Fin b → ℚ) (i : Fin a) (j : Fin b) (d : ℚ) :
    Fin a → Fin b → ℚ :=
  fun x y => if x = i ∧ y = j then M x y + d else M x y

/-- The mutable state of a `HiddenMarkovModel` instance: the parameter
matrices `A`, `B`, the expected-count accumulators `A_counts`, `B_counts`,
whether the count attributes exist yet (`hasattr(self, 'A_counts')`), and the
`unigram` flag. -/
structure HMMState (m V : ℕ) where
  A : Fin (m + 2) → Fin (m + 2) → ℚ
  B : Fin (m + 2) → Fin V → ℚ
  Acounts : Fin (m + 2) → Fin (m + 2) → ℚ
  Bcounts : Fin (m + 2) → Fin V → ℚ
  hasCounts : Bool
  unigram : Bool

/-- The `A_counts[prev_tag_id, tag_id] += mult` update of `E_step`'s interior
loop, with the indexing failure the source would hit for an out-of-range id. -/
def eStepTrans {m V : ℕ} (mult : ℚ) (pt : Option ℕ) (tg : ℕ) (s : HMMState m V) :
    HMMState m V × Except String Unit :=
  match pt with
  | none => (s, Except.ok ())
  | some pg =>
    if h : pg < m + 2 ∧ tg < m + 2 then
      ({ s with Acounts := bump s.Acounts ⟨pg, h.1⟩ ⟨tg, h.2⟩ mult }, Except.ok ())
    else (s, Except.error "tag index out of range")

/-- The interior loop `for j in range(1, len(isent)-1)` of `E_step`: walk the
sentence keeping the previous position alongside the current one, stopping
before the final (EOS) position.  A supervised current tag contributes a hard
emission count (when the word is an ordinary one, `word_id < V`) and, when the
previous tag is also present, a hard transition count. -/
def eStepLoop {m V : ℕ} (mult : ℚ) :
    List (ℕ × Option ℕ) → HMMState m V → HMMState m V × Except String Unit
  | (_, pt) :: (w, t) :: r :: rest, s =>
    match t with
    | none => eStepLoop mult ((w, t) :: r :: rest) s
    | some tg =>
      let sB : HMMState m V × Except String Unit :=
        if hw : w < V then
          if htg : tg < m + 2 then
            ({ s with Bcounts := bump s.Bcounts ⟨tg, htg⟩ ⟨w, hw⟩ mult }, Except.ok ())
          else (s, Except.error "tag index out of range")
        else (s, Except.ok ())
      match sB.2 with
      | Except.error msg => (sB.1, Except.error msg)
      | Except.ok _ =>
        let sA := eStepTrans mult pt tg sB.1
        match sA.2 with
        | Except.error msg => (sA.1, Except.error msg)
        | Except.ok _ => eStepLoop mult ((w, t) :: r :: rest) sA.1
  | _, s => (s, Except.ok ())

/-- The final `A_counts[last_tag, eos_t] += mult` update of `E_step`
(`last_tag = isent[-2][1]`). -/
def eStepLast {m V : ℕ} (mult : ℚ) (lastPos : Option (ℕ × Option ℕ)) (s : HMMState m V) :
    HMMState m V × Except String Unit :=
  match lastPos with
  | some (_, some tg) =>
    if htg : tg < m + 2 then
      ({ s with Acounts := bump s.Acounts ⟨tg, htg⟩ (eosT m) mult }, Except.ok ())
    else (s, Except.error "tag index out of range")
  | _ => (s, Except.ok ())

/-- Embedding of `HiddenMarkovModel.E_step` (hmm.py lines 303-356).  It
returns the state at the point the method exits together with a success or
error outcome; the three guard clauses fire before any state is touched.
Note that the body accumulates only the hard counts of supervised positions
-- it never runs the forward or backward pass. -/
def E_step {m V : ℕ} (isent : List (ℕ × Option ℕ)) (mult : ℚ) (s : HMMState m V) :
    HMMState m V × Except String Unit :=
  match isent with
  | [] => (s, Except.error "Empty sentence")
  | x0 :: xs =>
    if mult ≤ 0 then (s, Except.error "Multiplier must be positive")
    else
      match x0 :: xs with
      | y0 :: y1 :: y2 :: rest =>
        -- if not hasattr(self, 'A_counts'): self._zero_counts()
        let s0 : HMMState m V :=
          if s.hasCounts then s
          else { s with Acounts := fun _ _ => 0, Bcounts := fun _ _ => 0, hasCounts := true }
        -- first_tag = isent[1][1]; range check; A_counts[bos_t, first_tag] += mult
        let sF : HMMState m V × Except String Unit :=
          match y1.2 with
          | none => (s0, Except.ok ())
          | some tg =>
            if htg : tg < m + 2 then
              ({ s0 with Acounts := bump s0.Acounts (bosT m) ⟨tg, htg⟩ mult }, Except.ok ())
            else (s0, Except.error "Invalid tag index")
        match sF.2 with
        | Except.error msg => (sF.1, Except.error msg)
        | Except.ok _ =>
          let sL := eStepLoop mult (y0 :: y1 :: y2 :: rest) sF.1
          match sL.2 with
          | Except.error msg => (sL.1, Except.error msg)
          | Except.ok _ =>
            -- last_tag = isent[-2][1]: the last interior position, i.e. the
            -- last element of isent[1:-1]
            eStepLast mult ((y1 :: y2 :: rest).dropLast).getLast? sL.1
      | _ => (s, Except.error "Sentence too short")

/-- Embedding of the `while` loop of `HiddenMarkovModel.train`
(hmm.py lines 244-271), abstracting one epoch's E/M work into the loss value
it produces: `L e` is the development loss after `e` completed epochs (`L 0`
is the loss of the initial model, evaluated before the loop).  The loop
variable `step` is initialized to 0 and -- exactly as in the source -- never
modified by the loop body.  `fuel` bounds how many iterations we observe:
`some e` means the loop exited after completing `e` epochs, `none` means it
was still running after `fuel` iterations. -/
def trainLoop (maxSteps : ℕ) (tol : ℚ) (L : ℕ → ℚ) :
    ℕ → ℕ → ℕ → ℚ → Option ℕ
  | 0, _, _, _ => none
  | fuel + 1, step, e, old =>
    if step < maxSteps then
      if old * (1 - tol) ≤ L (e + 1) then some (e + 1)
      else trainLoop maxSteps tol L fuel step (e + 1) (L (e + 1))
    else some e

/-- Entry point of the training loop: `step = 0`, no epochs completed yet,
`old_dev_loss = loss(self)` evaluated at the start of training. -/
def trainEpochs (maxSteps : ℕ) (tol : ℚ) (L : ℕ → ℚ) (fuel : ℕ) : Option ℕ :=
  trainLoop maxSteps tol L fuel 0 0 (L 0)

/-- Smoothed emission counts of `M_step`: `smoothed_B_counts[:eos_t, :] += λ`
adds `λ` to every ordinary row (rows `0, …, m-1`). -/
def smoothedBC {m V : ℕ} (lam : ℚ) (Bc : Fin (m + 2) → Fin V → ℚ) :
    Fin (m + 2) → Fin V → ℚ :=
  fun t w => Bc t w + if t.val < m then lam else 0

/-- Row normalization with the source's zero-row guard:
`row_sums = torch.where(row_sums == 0, 1, row_sums)` and then division. -/
def rowNormalize {a b : ℕ} (M : Fin a → Fin b → ℚ) : Fin a → Fin b → ℚ :=
  fun i j => M i j / (if (∑ y, M i y) = 0 then 1 else ∑ y, M i y)

/-- The emission matrix `M_step` writes back: smoothed counts, row-normalized,
with rows `eos_t` and onward (`self.B[self.eos_t:, :] = 0`) zeroed. -/
def Bnew {m V : ℕ} (lam : ℚ) (Bc : Fin (m + 2) → Fin V → ℚ) :
    Fin (m + 2) → Fin V → ℚ :=
  fun t w => if m ≤ t.val then 0 else rowNormalize (smoothedBC lam Bc) t w

/-- Smoothed transition counts of the bigram branch:
`smoothed_counts[:eos_t, :] += λ` (note this includes the `bos_t` column). -/
def smoothedAC {m : ℕ} (lam : ℚ) (Ac : Fin (m + 2) → Fin (m + 2) → ℚ) :
    Fin (m + 2) → Fin (m + 2) → ℚ :=
  fun x y => Ac x y + if x.val < m then lam else 0

/-- The transition matrix of the bigram branch of `M_step`: normalize the
smoothed counts row-wise, then set column `bos_t` to 0 and row `eos_t` to 0. -/
def AnewBigram {m : ℕ} (lam : ℚ) (Ac : Fin (m + 2) → Fin (m + 2) → ℚ) :
    Fin (m + 2) → Fin (m + 2) → ℚ :=
  fun x y =>
    if x = eosT m then 0
    else if y = bosT m then 0
    else rowNormalize (smoothedAC lam Ac) x y

/-- Softmax weights of the unigram branch of `M_step`, in the exponential
representation: `row_counts = A_counts.sum(dim=0) + λ`, then
`WA = log(row_counts + 1e-10)` with `WA[:, bos_t] = -inf`, so the weight of
tag `y` is `row_counts y + 1e-10`, except 0 at `bos_t`. -/
def unigramWgt {m : ℕ} (lam : ℚ) (Ac : Fin (m + 2) → Fin (m + 2) → ℚ) :
    Fin (m + 2) → ℚ :=
  fun y => if y = bosT m then 0 else (∑ x, Ac x y) + lam + epsQ

/-- The transition matrix of the unigram branch of `M_step`: the softmax of
the weights, replicated into every row (`self.A.repeat(self.k, 1)`). -/
def AnewUnigram {m : ℕ} (lam : ℚ) (Ac : Fin (m + 2) → Fin (m + 2) → ℚ) :
    Fin (m + 2) → Fin (m + 2) → ℚ :=
  fun _ y => unigramWgt lam Ac y / ∑ z, unigramWgt lam Ac z

/-- The final debug assertions of `M_step`: every ordinary row of the matrix
sums to 1 within `torch.allclose(..., rtol=1e-5)`'s tolerance. -/
def rowsCloseToOne {m c : ℕ} (M : Fin (m + 2) → Fin c → ℚ) : Prop :=
  ∀ t : Fin (m + 2), t.val < m → |(∑ y, M t y) - 1| ≤ tolClose

instance {m c : ℕ} (M : Fin (m + 2) → Fin c → ℚ) : Decidable (rowsCloseToOne M) :=
  inferInstanceAs (Decidable (∀ _, _))

/-- Embedding of `HiddenMarkovModel.M_step` (hmm.py lines 142-204).  The
guard clauses and the `assert` statements become `Except.error` outcomes; on
normal return the new `A` and `B` are written into the state.  (The source
mutates `self.A`/`self.B` before its final assertions, so a failing final
assertion leaves the mutated matrices behind; the embedding only reports the
normal-return state.) -/
def M_step {m V : ℕ} (s : HMMState m V) (lam : ℚ) : Except String (HMMState m V) :=
  if lam < 0 then Except.error "Smoothing parameter must be non-negative"
  else if s.hasCounts = false then Except.error "No counts accumulated. Run E_step first."
  else if ∃ x, s.Acounts x (bosT m) ≠ 0 then
    Except.error "expected transition counts to BOS are not all zero"
  else if ∃ y, s.Acounts (eosT m) y ≠ 0 then
    Except.error "expected transition counts from EOS are not all zero"
  else if ∃ w, s.Bcounts (eosT m) w ≠ 0 then
    Except.error "expected emission counts from EOS and BOS are not all zero"
  else
    let Bn := Bnew lam s.Bcounts
    let An := if s.unigram then AnewUnigram lam s.Acounts else AnewBigram lam s.Acounts
    if ¬ rowsCloseToOne An then Except.error "Transition probabilities do not sum to 1"
    else if ¬ rowsCloseToOne Bn then Except.error "Emission probabilities do not sum to 1"
    else Except.ok { s with A := An, B := Bn }

/-- Embedding of the emission initialization of `init_params` (hmm.py lines
101-104): `B = softmax(WB)` rowwise, then rows `eos_t` and `bos_t` are set to
0.  `W` stands for the entrywise exponential of the random logits
`0.01 * torch.rand(k, V)`; any draw gives `W` with all entries in
`[1, e^0.01)`, in particular positive. -/
def initB {m V : ℕ} (W : Fin (m + 2) → Fin V → ℚ) : Fin (m + 2) → Fin V → ℚ :=
  fun t w => if m ≤ t.val then 0 else W t w / ∑ y, W t y

/-- Embedding of the transition initialization of `init_params` (hmm.py lines
111-124): `WA[:, bos_t] = -inf`, `A = softmax(WA)` rowwise; in unigram mode a
single row is built (from row 0 of the random logits) and replicated.  `W` is
the entrywise exponential of the random logits `0.01 * torch.rand(rows, k)`,
so the masked entry has weight 0 and all other entries are positive. -/
def initA {m : ℕ} (uni : Bool) (W : Fin (m + 2) → Fin (m + 2) → ℚ) :
    Fin (m + 2) → Fin (m + 2) → ℚ :=
  if uni then
    fun _ t => (if t = bosT m then 0 else W 0 t) / ∑ y, (if y = bosT m then 0 else W 0 y)
  else
    fun x t => (if t = bosT m then 0 else W x t) / ∑ y, (if y = bosT m then 0 else W x y)

/-- Maximum entry of a tag-indexed vector (`torch.max`). -/
def maxVec {m : ℕ} (v : Fin (m + 2) → ℚ) : ℚ :=
  (List.finRange (m + 2)).foldl (fun a t => max a (v t)) (v 0)

/-- One step of the forward recurrence of `forward_pass` (hmm.py lines
394-408), in the exponential representation: from the scaled `alpha[t-1]` and
the accumulated scale, compute `alpha[t]` for the next word and fold the new
maximum into the scale.  The `bos_t` column of the transition term is forced
to `-inf` (here: 0) exactly as `temp[:, self.bos_t] = float('-inf')` does. -/
def fwdStep {m V : ℕ} (A : Fin (m + 2) → Fin (m + 2) → ℚ) (B : Fin (m + 2) → Fin V → ℚ)
    (st : (Fin (m + 2) → ℚ) × ℚ) (w : ℕ) : (Fin (m + 2) → ℚ) × ℚ :=
  let v : Fin (m + 2) → ℚ := fun t =>
    (if t = bosT m then 0 else ∑ s, st.1 s * (A s t + epsQ)) * (Bat B t w + epsQ)
  (fun t => v t / maxVec v, st.2 * maxVec v)

/-- Embedding of `HiddenMarkovModel.forward_pass` (hmm.py lines 359-424) on
the interior word ids of a sentence: returns `Z = exp log_Z`.  Tags are not
consulted anywhere -- the source extracts only the word ids. -/
def forwardZ {m V : ℕ} (A : Fin (m + 2) → Fin (m + 2) → ℚ) (B : Fin (m + 2) → Fin V → ℚ)
    (ws : List ℕ) : ℚ :=
  let fin := ws.foldl (fwdStep A B) ((fun t => if t = bosT m then 1 else 0), 1)
  (∑ s, fin.1 s * (A s (eosT m) + epsQ)) * fin.2

/-- The word ids of the interior positions `isent[1:-1]` of an integerized
sentence. -/
def interiorWords (isent : List (ℕ × Option ℕ)) : List ℕ :=
  ((isent.drop 1).dropLast).map Prod.fst

/-- Embedding of `HiddenMarkovModel.logprob` (hmm.py lines 287-301): it
integerizes the sentence and returns `forward_pass`'s value; the tags of the
sentence are dropped on the way. -/
def logprobExp {m V : ℕ} (A : Fin (m + 2) → Fin (m + 2) → ℚ) (B : Fin (m + 2) → Fin V → ℚ)
    (isent : List (ℕ × Option ℕ)) : ℚ :=
  forwardZ A B (interiorWords isent)

/-- Rescale a beta vector by its maximum and fold the maximum into the
accumulated scale (the `if j > 1` scaling block of `backward_pass`).  In the
degenerate all-zero case the source computes `-inf - (-inf) = NaN`; the
rational model divides by zero, which yields 0. -/
def vecRescale {m : ℕ} (st : (Fin (m + 2) → ℚ) × ℚ) : (Fin (m + 2) → ℚ) × ℚ :=
  (fun t => st.1 t / maxVec st.1, st.2 * maxVec st.1)

/-- The `j == n + 1` iteration of the backward loop (hmm.py lines 457-462):
for each ordinary `s`, sum the contributions of those `t` in `valid_tags`
with `t == eos_t` and `A[s,t] > 0`.  Since `valid_tags` excludes `eos_t`,
the condition never holds and every entry is `-inf` (here: 0); the embedding
keeps the dead condition verbatim. -/
def eosStepB {m : ℕ} (A : Fin (m + 2) → Fin (m + 2) → ℚ) (bNext : Fin (m + 2) → ℚ) :
    Fin (m + 2) → ℚ :=
  fun s =>
    if s.val < m then
      ∑ t, if t.val < m ∧ t = eosT m ∧ 0 < A s t then A s t * bNext t else 0
    else 0

/-- An interior iteration (`j ≤ n`) of the backward loop (hmm.py lines
463-467): `beta[j-1][s] = logsumexp over ordinary t with A[s,t] > 0 and
B[t, w_j] > 0 of A[s,t] + B[t, w_j] + beta[j][t]`. -/
def bstepB {m V : ℕ} (A : Fin (m + 2) → Fin (m + 2) → ℚ) (B : Fin (m + 2) → Fin V → ℚ)
    (w : ℕ) (bNext : Fin (m + 2) → ℚ) : Fin (m + 2) → ℚ :=
  fun s =>
    if s.val < m then
      ∑ t, if t.val < m ∧ 0 < A s t ∧ 0 < Bat B t w then A s t * Bat B t w * bNext t else 0
    else 0

/-- Backward recursion over the interior words: `backRecAux ws` returns the
raw (not yet rescaled) beta vector for the position just before `ws`,
together with the scale accumulated from the deeper positions.  Every vector
except the outermost one is rescaled exactly once before being consumed,
mirroring the source's `if j > 1` scaling. -/
def backRecAux {m V : ℕ} (A : Fin (m + 2) → Fin (m + 2) → ℚ) (B : Fin (m + 2) → Fin V → ℚ) :
    List ℕ → (Fin (m + 2) → ℚ) × ℚ
  | [] => (eosStepB A (fun t => if t = eosT m then 1 else 0), 1)
  | w :: rest =>
    let pr := vecRescale (backRecAux A B rest)
    (bstepB A B w pr.1, pr.2)

/-- Embedding of the return value of `HiddenMarkovModel.backward_pass`
(hmm.py lines 427-515) on the interior word ids of a sentence:
`log_Z_backward = beta[0][bos_t] + log_scale`, i.e. here
`beta0 bos_t * scale`.  The expected-count accumulation statements in the
source's loop write only to `A_counts`/`B_counts` and do not feed back into
the beta recursion or the return value, so they are not part of this
embedding of the return value. -/
def backwardZ {m V : ℕ} (A : Fin (m + 2) → Fin (m + 2) → ℚ) (B : Fin (m + 2) → Fin V → ℚ)
    (ws : List ℕ) : ℚ :=
  (backRecAux A B ws).1 (bosT m) * (backRecAux A B ws).2

/-- The list `valid_tags = [t for t in range(k) if t != bos_t and t != eos_t]`
used by `backward_pass` and `viterbi_tagging`. -/
def validTags (m : ℕ) : List (Fin (m + 2)) :=
  (List.finRange (m + 2)).filter (fun t => t != bosT m && t != eosT m)

/-- Position-1 scores of `viterbi_tagging` (hmm.py lines 546-555): for each
ordinary tag `t`, if `A[bos_t, t] > 0` and `B[t, w1] > 0` then
`alpha[1][t] = A[bos_t, t] * B[t, w1]`, else `-inf` (here 0). -/
def vAlpha1 {m V : ℕ} (A : Fin (m + 2) → Fin (m + 2) → ℚ) (B : Fin (m + 2) → Fin V → ℚ)
    (w1 : ℕ) : Fin (m + 2) → ℚ :=
  fun t =>
    if t ∈ validTags m ∧ 0 < A (bosT m) t ∧ 0 < Bat B t w1 then A (bosT m) t * Bat B t w1
    else 0

/-- Position-1 backpointers of `viterbi_tagging`: `bos_t` where the score is
reachable, `-1` (here `none`) otherwise. -/
def vBp1 {m V : ℕ} (A : Fin (m + 2) → Fin (m + 2) → ℚ) (B : Fin (m + 2) → Fin V → ℚ)
    (w1 : ℕ) : Fin (m + 2) → Option (Fin (m + 2)) :=
  fun t =>
    if t ∈ validTags m ∧ 0 < A (bosT m) t ∧ 0 < Bat B t w1 then some (bosT m) else none

/-- The inner max/argmax loop of `viterbi_tagging` (hmm.py lines 560-570) for
one cell `(j, t)`: scan the ordinary previous tags `s` in order, keeping the
first strictly-best `alpha[j-1][s] * A[s,t] * B[t,w]` among those with
`A[s,t] > 0`, `B[t,w] > 0` and reachable `alpha[j-1][s]`. -/
def vBestStep {m V : ℕ} (A : Fin (m + 2) → Fin (m + 2) → ℚ) (B : Fin (m + 2) → Fin V → ℚ)
    (ap : Fin (m + 2) → ℚ) (w : ℕ) (t : Fin (m + 2))
    (acc : ℚ × Option (Fin (m + 2))) (s : Fin (m + 2)) : ℚ × Option (Fin (m + 2)) :=
  if 0 < A s t ∧ 0 < Bat B t w ∧ 0 < ap s ∧ acc.1 < ap s * A s t * Bat B t w then
    (ap s * A s t * Bat B t w, some s)
  else acc

def vBest {m V : ℕ} (A : Fin (m + 2) → Fin (m + 2) → ℚ) (B : Fin (m + 2) → Fin V → ℚ)
    (ap : Fin (m + 2) → ℚ) (w : ℕ) (t : Fin (m + 2)) : ℚ × Option (Fin (m + 2)) :=
  (validTags m).foldl (vBestStep A B ap w t) (0, none)

/-- One interior position `j` of `viterbi_tagging`: scores and backpointers
for every ordinary tag; non-ordinary tags keep their initialized `-inf`/`-1`. -/
def vStep {m V : ℕ} (A : Fin (m + 2) → Fin (m + 2) → ℚ) (B : Fin (m + 2) → Fin V → ℚ)
    (ap : Fin (m + 2) → ℚ) (w : ℕ) :
    (Fin (m + 2) → ℚ) × (Fin (m + 2) → Option (Fin (m + 2))) :=
  (fun t => if t ∈ validTags m then (vBest A B ap w t).1 else 0,
   fun t => if t ∈ validTags m then (vBest A B ap w t).2 else none)

/-- Run the viterbi trellis over the interior words: final `alpha[n]` plus the
backpointer tables for positions `1, …, n`. -/
def vRun {m V : ℕ} (A : Fin (m + 2) → Fin (m + 2) → ℚ) (B : Fin (m + 2) → Fin V → ℚ)
    (w1 : ℕ) (rest : List ℕ) :
    (Fin (m + 2) → ℚ) × List (Fin (m + 2) → Option (Fin (m + 2))) :=
  rest.foldl
    (fun st w => ((vStep A B st.1 w).1, st.2 ++ [(vStep A B st.1 w).2]))
    (vAlpha1 A B w1, [vBp1 A B w1])

/-- The score component of the viterbi trellis alone (the first components
of `vRun`), convenient for reasoning. -/
def vAlphaRun {m V : ℕ} (A : Fin (m + 2) → Fin (m + 2) → ℚ) (B : Fin (m + 2) → Fin V → ℚ)
    (w1 : ℕ) (rest : List ℕ) : Fin (m + 2) → ℚ :=
  rest.foldl (fun ap w => (vStep A B ap w).1) (vAlpha1 A B w1)

/-- The transition-to-EOS step of `viterbi_tagging` (hmm.py lines 572-582):
best predecessor among ordinary `s` with `A[s, eos_t] > 0` and reachable
`alpha[n][s]`. -/
def vEosStep {m : ℕ} (A : Fin (m + 2) → Fin (m + 2) → ℚ) (an : Fin (m + 2) → ℚ)
    (acc : ℚ × Option (Fin (m + 2))) (s : Fin (m + 2)) : ℚ × Option (Fin (m + 2)) :=
  if 0 < A s (eosT m) ∧ 0 < an s ∧ acc.1 < an s * A s (eosT m) then
    (an s * A s (eosT m), some s)
  else acc

def vEosBest {m : ℕ} (A : Fin (m + 2) → Fin (m + 2) → ℚ) (an : Fin (m + 2) → ℚ) :
    ℚ × Option (Fin (m + 2)) :=
  (validTags m).foldl (vEosStep A an) (0, none)

/-- Backpointer table of position `n+1`: only the `eos_t` entry is written. -/
def vBpEos {m : ℕ} (A : Fin (m + 2) → Fin (m + 2) → ℚ) (an : Fin (m + 2) → ℚ) :
    Fin (m + 2) → Option (Fin (m + 2)) :=
  fun t => if t = eosT m then (vEosBest A an).2 else none

/-- The backtracking loop of `viterbi_tagging` (hmm.py lines 584-593),
walking the backpointer tables from position `n+1` down to 1 (the input list
here is already reversed).  A `-1` backpointer (`none`) raises
`ValueError("No valid path at position j")`; interior tags are collected by
prepending, skipping the sentinels. -/
def vBacktrack {m : ℕ} :
    List (Fin (m + 2) → Option (Fin (m + 2))) → Fin (m + 2) → List (Fin (m + 2)) →
    Except String (List (Fin (m + 2)))
  | [], _, acc => Except.ok acc
  | bp :: rest, cur, acc =>
    match bp cur with
    | none => Except.error "No valid path"
    | some prev =>
      vBacktrack rest prev (if cur ≠ eosT m ∧ cur ≠ bosT m then cur :: acc else acc)

/-- Embedding of `HiddenMarkovModel.viterbi_tagging` (hmm.py lines 517-606)
on the interior word ids of a sentence, returning the decoded interior tag
sequence (the source then reattaches the original words and the BOS/EOS
brackets, which we leave implicit).  On an empty interior the source indexes
`B[:, V]` with the EOS word id and raises `IndexError`. -/
def viterbiTags {m V : ℕ} (A : Fin (m + 2) → Fin (m + 2) → ℚ) (B : Fin (m + 2) → Fin V → ℚ)
    (ws : List ℕ) : Except String (List (Fin (m + 2))) :=
  match ws with
  | [] => Except.error "index out of range"
  | w1 :: rest =>
    vBacktrack ((vRun A B w1 rest).2 ++ [vBpEos A (vRun A B w1 rest).1]).reverse (eosT m) []

/-- Score of one complete tag path through a sentence, starting from the tag
`prev`: the product of the transition and emission probabilities the model
assigns along the path, ending with the transition into EOS.  A length
mismatch scores 0. -/
def pathScoreFrom {m V : ℕ} (A : Fin (m + 2) → Fin (m + 2) → ℚ) (B : Fin (m + 2) → Fin V → ℚ) :
    Fin (m + 2) → List ℕ → List (Fin (m + 2)) → ℚ
  | prev, [], [] => A prev (eosT m)
  | prev, w :: ws, t :: ts => A prev t * Bat B t w * pathScoreFrom A B t ws ts
  | _, _, _ => 0

/-- Score of a candidate tag path for the interior words `ws`: start at BOS,
transition through the tags of `ts` emitting the words of `ws`, end at EOS. -/
def pathScore {m V : ℕ} (A : Fin (m + 2) → Fin (m + 2) → ℚ) (B : Fin (m + 2) → Fin V → ℚ)
    (ws : List ℕ) (ts : List (Fin (m + 2))) : ℚ :=
  pathScoreFrom A B (bosT m) ws ts

/-- Partial score of a tag path (no final EOS transition): the product of the
transition and emission factors only. -/
def chainScore {m V : ℕ} (A : Fin (m + 2) → Fin (m + 2) → ℚ) (B : Fin (m + 2) → Fin V → ℚ) :
    Fin (m + 2) → List ℕ → List (Fin (m + 2)) → ℚ
  | _, [], [] => 1
  | prev, w :: ws, t :: ts => A prev t * Bat B t w * chainScore A B t ws ts
  | _, _, _ => 0

/-- Whether an `E_step` outcome is an exception. -/
def isErr : Except String Unit → Bool
  | Except.error _ => true
  | Except.ok _ => false

/-- The structural-zero condition on the count accumulators: no mass in
column `bos_t` of `A_counts`, in row `eos_t` of `A_counts`, or in rows
`eos_t`/`bos_t` of `B_counts`. -/
def forbZero {m V : ℕ} (s : HMMState m V) : Prop :=
  (∀ x, s.Acounts x (bosT m) = 0) ∧ (∀ y, s.Acounts (eosT m) y = 0) ∧
    (∀ w, s.Bcounts (eosT m) w = 0) ∧ (∀ w, s.Bcounts (bosT m) w = 0)

/-- A development-loss sequence that keeps improving by a factor of 2 every
epoch, so the early-stopping test of `train` never fires. -/
def halvingLoss : ℕ → ℚ := fun i => (1 / 2) ^ i

/-! Concrete instances used to settle the claims.  Throughout, `m = 1` means
one ordinary tag `0` with `eos_t = 1`, `bos_t = 2` (and `m = 2` two ordinary
tags `0, 1` with `eos_t = 2`, `bos_t = 3`); `V = 1` means a single ordinary
word `0`, with EOS word id `1` and BOS word id `2`. -/

/-- Transition matrix for the log Z claim: BOS goes to tag 0, tag 0 goes to
EOS, all with probability 1. -/
def Ac1 : Fin 3 → Fin 3 → ℚ := fun s t =>
  if s.val = 2 ∧ t.val = 0 then 1 else if s.val = 0 ∧ t.val = 1 then 1 else 0

/-- Emission matrix for the log Z claim: tag 0 emits word 0 with
probability 1. -/
def Bc1 : Fin 3 → Fin 1 → ℚ := fun t _ => if t.val = 0 then 1 else 0

/-- Transition matrix for the logprob claim (`m = 2`): BOS goes to tag 0 or
tag 1 with probability 1/2 each, both go to EOS with probability 1. -/
def Ac5 : Fin 4 → Fin 4 → ℚ := fun s t =>
  if s.val = 3 ∧ t.val < 2 then 1 / 2 else if s.val < 2 ∧ t.val = 2 then 1 else 0

/-- Emission matrix for the logprob claim: tags 0 and 1 each emit word 0 with
probability 1. -/
def Bc5 : Fin 4 → Fin 1 → ℚ := fun t _ => if t.val < 2 then 1 else 0

/-- A fully tagged one-word integerized sentence for `m = 2`, `V = 1`:
`[(BOS word, BOS tag), (word 0, tag 0), (EOS word, EOS tag)]`. -/
def isentTagged : List (ℕ × Option ℕ) := [(2, some 3), (0, some 0), (1, some 2)]

/-- A one-word integerized sentence with its interior position untagged, for
`m = 1`, `V = 1`. -/
def isentUntagged : List (ℕ × Option ℕ) := [(2, some 2), (0, none), (1, some 1)]

/-- A fully tagged one-word integerized sentence for `m = 1`, `V = 1`. -/
def isentSup : List (ℕ × Option ℕ) := [(2, some 2), (0, some 0), (1, some 1)]

/-- A too-short integerized sentence (no interior position). -/
def isentShort : List (ℕ × Option ℕ) := [(2, some 2), (1, some 1)]

/-- A model state with zeroed parameter matrices, a hard count of 1 on
`A_counts[0, 0]` and on transitions out of BOS, and on `B_counts[0, 0]`;
bigram mode, counts present. -/
def stC : HMMState 1 1 where
  A := fun _ _ => 0
  B := fun _ _ => 0
  Acounts := fun s t => if s.val = 0 ∧ t.val < 2 then 1 else if s.val = 2 ∧ t.val = 0 then 1 else 0
  Bcounts := fun t _ => if t.val = 0 then 1 else 0
  hasCounts := true
  unigram := false

/-- The state `M_step` produces from `stC` with `λ = 0`. -/
def stC1 : HMMState 1 1 :=
  { stC with A := AnewBigram 0 stC.Acounts, B := Bnew 0 stC.Bcounts }

/-- The unigram-mode analogue of `stC`: a count of 1 on `A_counts[0, 0]` and
on `B_counts[0, 0]`. -/
def stU : HMMState 1 1 where
  A := fun _ _ => 0
  B := fun _ _ => 0
  Acounts := fun s t => if s.val = 0 ∧ t.val = 0 then 1 else 0
  Bcounts := fun t _ => if t.val = 0 then 1 else 0
  hasCounts := true
  unigram := true

/-- The state `M_step` produces from `stU` with `λ = 0`. -/
def stU1 : HMMState 1 1 :=
  { stU with A := AnewUnigram 0 stU.Acounts, B := Bnew 0 stU.Bcounts }

/-- An all-ones weight matrix: the entrywise exponential of the all-zeros
logit matrix, which `0.01 * torch.rand(k, k)` produces when every draw is 0. -/
def Wones : Fin 3 → Fin 3 → ℚ := fun _ _ => 1

/-- An all-ones emission weight matrix (exponential of all-zero logits). -/
def WonesB : Fin 3 → Fin 1 → ℚ := fun _ _ => 1

/-- A model for the viterbi-failure claim: BOS goes to tag 0, tag 0 loops to
itself, and nothing ever transitions into EOS. -/
def Ac9 : Fin 3 → Fin 3 → ℚ := fun s t =>
  if s.val = 2 ∧ t.val = 0 then 1 else if s.val = 0 ∧ t.val = 0 then 1 else 0

/-- Emissions for the viterbi-failure claim: tag 0 emits word 0. -/
def Bc9 : Fin 3 → Fin 1 → ℚ := fun t _ => if t.val = 0 then 1 else 0

/-- A model state with zeroed parameters and zeroed, present accumulators
(`m = 1`, `V = 1`, bigram mode): the state right after `_zero_counts`. -/
def st0 : HMMState 1 1 where
  A := fun _ _ => 0
  B := fun _ _ => 0
  Acounts := fun _ _ => 0
  Bcounts := fun _ _ => 0
  hasCounts := true
  unigram := false

/-! Helper lemmas. -/

lemma sumFin3 (v : Fin (1 + 2) → ℚ) : (∑ x, v x) = v 0 + v 1 + v 2 :=
  Fin.sum_univ_three v

lemma sumFin4 (v : Fin (2 + 2) → ℚ) : (∑ x, v x) = v 0 + v 1 + v 2 + v 3 :=
  Fin.sum_univ_four v

lemma maxVec_zero {m : ℕ} : maxVec (m := m) (fun _ => 0) = 0 := by
  unfold maxVec
  have h : ∀ l : List (Fin (m + 2)), List.foldl (fun a t => max a ((fun _ => (0:ℚ)) t)) 0 l = 0 := by
    intro l
    induction l with
    | nil => rfl
    | cons x xs ih => simpa using ih
  simpa using h (List.finRange (m + 2))

lemma eosStepB_zero {m : ℕ} (A : Fin (m + 2) → Fin (m + 2) → ℚ) (b : Fin (m + 2) → ℚ) :
    eosStepB A b = fun _ => 0 := by
  funext s
  unfold eosStepB
  split
  · exact Finset.sum_eq_zero fun t _ =>
      if_neg (by rintro ⟨h1, h2, _⟩; rw [h2] at h1; simp [eosT] at h1)
  · rfl

lemma bstepB_zero {m V : ℕ} (A : Fin (m + 2) → Fin (m + 2) → ℚ) (B : Fin (m + 2) → Fin V → ℚ)
    (w : ℕ) : bstepB A B w (fun _ => 0) = fun _ => 0 := by
  funext s
  unfold bstepB
  split
  · exact Finset.sum_eq_zero fun t _ => by split <;> simp
  · rfl

lemma backRecAux_fst {m V : ℕ} (A : Fin (m + 2) → Fin (m + 2) → ℚ)
    (B : Fin (m + 2) → Fin V → ℚ) (ws : List ℕ) :
    (backRecAux A B ws).1 = fun _ => 0 := by
  induction ws with
  | nil => exact eosStepB_zero A _
  | cons w rest ih =>
    show bstepB A B w (vecRescale (backRecAux A B rest)).1 = fun _ => 0
    have h : (vecRescale (backRecAux A B rest)).1 = fun _ => 0 := by
      funext t
      show (backRecAux A B rest).1 t / maxVec (backRecAux A B rest).1 = 0
      rw [ih]
      simp
    rw [h, bstepB_zero]

/-- Claim C1.  For every sentence, the log Z recomputed by `backward_pass`
is claimed to match `forward_pass`'s log Z within 1e-4.  In fact the value
`backward_pass` returns is identically `log 0` (represented here as 0 in the
exponential domain), for every model and every sentence, because the
`j == n + 1` iteration ranges `t` over `valid_tags`, which excludes `eos_t`,
so its `t == self.eos_t` branch never fires and no mass ever flows back from
EOS.  On the concrete one-word sentence `[0]` under `Ac1`/`Bc1` the forward
value is strictly positive, so the claimed agreement is impossible: the code
contradicts its own "this computation should match forward pass" comment. -/
theorem backward_logZ_always_zero_forward_positive :
    (∀ (m V : ℕ) (A : Fin (m + 2) → Fin (m + 2) → ℚ) (B : Fin (m + 2) → Fin V → ℚ)
      (ws : List ℕ), backwardZ A B ws = 0) ∧ 0 < forwardZ Ac1 Bc1 [0] := by
  constructor
  · intro m V A B ws
    unfold backwardZ
    rw [backRecAux_fst]
    simp
  · have h3 : List.finRange (1 + 2) = [0, 1, 2] := by decide
    simp only [forwardZ, fwdStep, maxVec, List.foldl_cons, List.foldl_nil, h3, sumFin3]
    norm_num [Ac1, Bc1, Bat, epsQ, bosT, eosT, Fin.ext_iff, max_def]

lemma trainLoop_never_stops (fuel e : ℕ) :
    trainLoop 1 (1 / 1000) halvingLoss fuel 0 e (halvingLoss e) = none := by
  induction fuel generalizing e with
  | zero => rfl
  | succ n ih =>
    unfold trainLoop
    have hlt : ¬ halvingLoss e * (1 - 1 / 1000) ≤ halvingLoss (e + 1) := by
      have hp : (0:ℚ) < (1 / 2) ^ e := by positivity
      simp only [halvingLoss, pow_succ, not_le]
      calc (1 / 2 : ℚ) ^ e * (1 / 2) < (1 / 2) ^ e * (1 - 1 / 1000) := by
            exact (mul_lt_mul_left hp).mpr (by norm_num)
        _ = (1 / 2) ^ e * (1 - 1 / 1000) := rfl
    simp only [if_pos (by norm_num : (0:ℕ) < 1), if_neg hlt]
    exact ih (e + 1)

/-- Claim C3.  `train` is claimed to perform at most `max_steps` epochs.  In
the source the loop guard is `while step < max_steps`, but `step` is
initialized to 0 and never incremented, so with `max_steps = 1` and a loss
that keeps improving (halving every epoch, so the early-stopping test never
fires) the loop is still running after any number `fuel` of epochs: the
epoch budget never binds, contradicting the docstring "To prevent running
forever, we also stop if we exceed the max number of steps". -/
theorem train_ignores_epoch_budget :
    ∀ fuel : ℕ, trainEpochs 1 (1 / 1000) halvingLoss fuel = none := by
  intro fuel
  unfold trainEpochs
  simpa using trainLoop_never_stops fuel 0

/-- Claim C2.  During expectation accumulation, a tag-unsupervised interior
position is claimed to contribute a soft posterior-weighted count
`mult * exp(alpha[j][t] + beta[j][t] - log Z)` to `B_counts[t, word_j]` for
every candidate tag `t` (and soft counts at untagged boundaries).  The
expectation step the training loop actually runs, `E_step`, contradicts its
own docstring ("Runs the forward backward algorithm ... adds expected
counts"): it accumulates only hard counts at supervised positions and skips
unsupervised positions entirely.  On the one-word sentence whose interior
tag is unknown it leaves the accumulators untouched and returns normally:
`B_counts[0, 0]` stays 0 even though the claimed soft weight is positive. -/
theorem estep_no_soft_counts :
    E_step isentUntagged 1 st0 = (st0, Except.ok ()) ∧
      (E_step isentUntagged 1 st0).1.Bcounts 0 0 = 0 := by
  constructor
  · rfl
  · rfl

/-- Claim C10.  If the integerized sentence is empty or has fewer than 3
positions, or the multiplier is not strictly positive, `E_step` raises a
`ValueError` before touching the accumulators: the returned state is the
input state unchanged and the outcome is an error. -/
theorem estep_guard_clauses {m V : ℕ} (isent : List (ℕ × Option ℕ)) (mult : ℚ)
    (s : HMMState m V) (h : isent = [] ∨ isent.length < 3 ∨ mult ≤ 0) :
    (E_step isent mult s).1 = s ∧ isErr (E_step isent mult s).2 = true := by
  rcases h with h | h | h
  · subst h
    exact ⟨rfl, rfl⟩
  · rcases isent with _ | ⟨x0, _ | ⟨x1, _ | ⟨x2, rest⟩⟩⟩
    · exact ⟨rfl, rfl⟩
    · by_cases hm : mult ≤ 0 <;> simp [E_step, isErr, hm]
    · by_cases hm : mult ≤ 0 <;> simp [E_step, isErr, hm]
    · simp at h
      omega
  · rcases isent with _ | ⟨x0, xs⟩
    · exact ⟨rfl, rfl⟩
    · simp [E_step, isErr, h]

/-- Witness for C10: the two-position sentence `isentShort` with `mult = 1`
satisfies the length guard, and `E_step` leaves `st0` unchanged and errors. -/
theorem estep_guard_clauses_witness :
    (isentShort = [] ∨ isentShort.length < 3 ∨ (1:ℚ) ≤ 0) ∧
      ((E_step isentShort 1 st0).1 = st0 ∧ isErr (E_step isentShort 1 st0).2 = true) :=
  ⟨Or.inr (Or.inl (by norm_num [isentShort])),
    estep_guard_clauses isentShort 1 st0 (Or.inr (Or.inl (by norm_num [isentShort])))⟩

lemma Mstep_ok_spec {m V : ℕ} {s s2 : HMMState m V} {lam : ℚ}
    (h : M_step s lam = Except.ok s2) :
    s2.A = (if s.unigram then AnewUnigram lam s.Acounts else AnewBigram lam s.Acounts) ∧
    s2.B = Bnew lam s.Bcounts ∧
    s2.Acounts = s.Acounts ∧ s2.Bcounts = s.Bcounts ∧
    s2.hasCounts = s.hasCounts ∧ s2.unigram = s.unigram ∧
    rowsCloseToOne (if s.unigram then AnewUnigram lam s.Acounts else AnewBigram lam s.Acounts) ∧
    rowsCloseToOne (Bnew lam s.Bcounts) := by
  by_cases hu : s.unigram
  · simp only [M_step, hu, if_true] at h ⊢
    split_ifs at h with h1 h2 h3 h4 h5 h6 h7
    rw [Except.ok.injEq] at h
    subst h
    exact ⟨rfl, rfl, rfl, rfl, rfl, rfl, h6, h7⟩
  · have hu2 : s.unigram = false := by simpa using hu
    simp only [M_step, hu2, Bool.false_eq_true, if_false] at h ⊢
    split_ifs at h with h1 h2 h3 h4 h5 h6 h7
    rw [Except.ok.injEq] at h
    subst h
    exact ⟨rfl, rfl, rfl, rfl, rfl, rfl, h6, h7⟩

lemma Mstep_ok_A_bos {m V : ℕ} {s s2 : HMMState m V} {lam : ℚ}
    (h : M_step s lam = Except.ok s2) : ∀ x, s2.A x (bosT m) = 0 := by
  intro x
  rw [(Mstep_ok_spec h).1]
  by_cases hu : s.unigram
  · rw [if_pos hu]
    simp [AnewUnigram, unigramWgt]
  · rw [if_neg hu]
    simp only [AnewBigram]
    split
    · rfl
    · simp

lemma Mstep_ok_B_rows {m V : ℕ} {s s2 : HMMState m V} {lam : ℚ}
    (h : M_step s lam = Except.ok s2) :
    ∀ w, s2.B (eosT m) w = 0 ∧ s2.B (bosT m) w = 0 := by
  intro w
  rw [(Mstep_ok_spec h).2.1]
  constructor
  · simp only [Bnew]
    rw [if_pos]
    simp [eosT]
  · simp only [Bnew]
    rw [if_pos]
    show m ≤ (bosT m).val
    simp [bosT]

lemma Mstep_ok_A_eos_bigram {m V : ℕ} {s s2 : HMMState m V} {lam : ℚ}
    (h : M_step s lam = Except.ok s2) (hu : s.unigram = false) :
    ∀ y, s2.A (eosT m) y = 0 := by
  intro y
  rw [(Mstep_ok_spec h).1, hu]
  simp only [Bool.false_eq_true, if_false, AnewBigram]
  simp

lemma Mstep_ok_rowsums {m V : ℕ} {s s2 : HMMState m V} {lam : ℚ}
    (h : M_step s lam = Except.ok s2) :
    ∀ t : Fin (m + 2), t.val < m →
      |(∑ y, s2.A t y) - 1| ≤ tolClose ∧ (∑ w, s2.B t w) = 1 := by
  intro t ht
  obtain ⟨hA, hB, -, -, -, -, hAc, hBc⟩ := Mstep_ok_spec h
  constructor
  · rw [hA]
    exact hAc t ht
  · rw [hB]
    have hrow : ∀ w, Bnew lam s.Bcounts t w =
        smoothedBC lam s.Bcounts t w /
          (if (∑ y, smoothedBC lam s.Bcounts t y) = 0 then 1
           else ∑ y, smoothedBC lam s.Bcounts t y) := by
      intro w
      simp only [Bnew, rowNormalize, if_neg (by omega : ¬ m ≤ t.val)]
    by_cases hS : (∑ y, smoothedBC lam s.Bcounts t y) = 0
    · exfalso
      have hz : (∑ w, Bnew lam s.Bcounts t w) = 0 := by
        simp only [hrow, if_pos hS, div_one]
        exact hS
      have hcl := hBc t ht
      rw [hz] at hcl
      norm_num [tolClose] at hcl
    · have hsum : (∑ w, Bnew lam s.Bcounts t w) =
          (∑ w, smoothedBC lam s.Bcounts t w) / (∑ y, smoothedBC lam s.Bcounts t y) := by
        simp only [hrow, if_neg hS]
        rw [Finset.sum_div]
      rw [hsum, div_self hS]

lemma rowsClose_AnewBigram_stC : rowsCloseToOne (AnewBigram 0 stC.Acounts) := by
  intro t ht
  have ht0 : t = 0 := by
    apply Fin.ext
    simp only [Fin.val_zero]
    omega
  subst ht0
  rw [sumFin3]
  simp only [AnewBigram, rowNormalize, smoothedAC, sumFin3, stC]
  norm_num [bosT, eosT, Fin.ext_iff, tolClose, abs_le]

lemma rowsClose_Bnew_stC : rowsCloseToOne (Bnew 0 stC.Bcounts) := by
  intro t ht
  have ht0 : t = 0 := by
    apply Fin.ext
    simp only [Fin.val_zero]
    omega
  subst ht0
  have h1 : (∑ w : Fin 1, Bnew 0 stC.Bcounts 0 w) = Bnew 0 stC.Bcounts 0 0 :=
    Fin.sum_univ_one _
  rw [h1]
  norm_num [Bnew, rowNormalize, smoothedBC, stC, Fin.sum_univ_one, tolClose, abs_le]

lemma Mstep_stC_eval : M_step stC 0 = Except.ok stC1 := by
  simp only [M_step]
  rw [if_neg (by norm_num : ¬(0:ℚ) < 0)]
  rw [if_neg (by decide : ¬stC.hasCounts = false)]
  rw [if_neg (by decide : ¬∃ x, stC.Acounts x (bosT 1) ≠ 0)]
  rw [if_neg (by decide : ¬∃ y, stC.Acounts (eosT 1) y ≠ 0)]
  rw [if_neg (by decide : ¬∃ w, stC.Bcounts (eosT 1) w ≠ 0)]
  rw [if_neg (by decide : ¬stC.unigram = true)]
  rw [if_neg (not_not_intro rowsClose_AnewBigram_stC)]
  rw [if_neg (not_not_intro rowsClose_Bnew_stC)]
  rfl

lemma Mstep_stC1_eval : M_step stC1 0 = Except.ok stC1 := by
  simp only [M_step]
  rw [if_neg (by norm_num : ¬(0:ℚ) < 0)]
  rw [if_neg (by decide : ¬stC1.hasCounts = false)]
  rw [if_neg (by decide : ¬∃ x, stC1.Acounts x (bosT 1) ≠ 0)]
  rw [if_neg (by decide : ¬∃ y, stC1.Acounts (eosT 1) y ≠ 0)]
  rw [if_neg (by decide : ¬∃ w, stC1.Bcounts (eosT 1) w ≠ 0)]
  rw [if_neg (by decide : ¬stC1.unigram = true)]
  have hA1 : rowsCloseToOne (AnewBigram 0 stC1.Acounts) := rowsClose_AnewBigram_stC
  have hB1 : rowsCloseToOne (Bnew 0 stC1.Bcounts) := rowsClose_Bnew_stC
  rw [if_neg (not_not_intro hA1)]
  rw [if_neg (not_not_intro hB1)]
  rfl

lemma rowsClose_AnewUnigram_stU : rowsCloseToOne (AnewUnigram 0 stU.Acounts) := by
  intro t ht
  rw [sumFin3]
  simp only [AnewUnigram, unigramWgt, sumFin3, stU]
  norm_num [bosT, eosT, Fin.ext_iff, tolClose, abs_le, epsQ]

lemma rowsClose_Bnew_stU : rowsCloseToOne (Bnew 0 stU.Bcounts) := by
  intro t ht
  have ht0 : t = 0 := by
    apply Fin.ext
    simp only [Fin.val_zero]
    omega
  subst ht0
  have h1 : (∑ w : Fin 1, Bnew 0 stU.Bcounts 0 w) = Bnew 0 stU.Bcounts 0 0 :=
    Fin.sum_univ_one _
  rw [h1]
  norm_num [Bnew, rowNormalize, smoothedBC, stU, Fin.sum_univ_one, tolClose, abs_le]

lemma Mstep_stU_eval : M_step stU 0 = Except.ok stU1 := by
  simp only [M_step]
  rw [if_neg (by norm_num : ¬(0:ℚ) < 0)]
  rw [if_neg (by decide : ¬stU.hasCounts = false)]
  rw [if_neg (by decide : ¬∃ x, stU.Acounts x (bosT 1) ≠ 0)]
  rw [if_neg (by decide : ¬∃ y, stU.Acounts (eosT 1) y ≠ 0)]
  rw [if_neg (by decide : ¬∃ w, stU.Bcounts (eosT 1) w ≠ 0)]
  rw [if_pos (by decide : stU.unigram = true)]
  rw [if_neg (not_not_intro rowsClose_AnewUnigram_stU)]
  rw [if_neg (not_not_intro rowsClose_Bnew_stU)]
  rfl

/-- Claim C8.  Calling `M_step` twice in a row with the same `λ` and without
touching the accumulators in between yields, on the second call, the same
`A` and `B` as the first call: `M_step` reads only `A_counts`/`B_counts` and
`λ`, writes only `A` and `B`, and leaves the accumulators in place. -/
theorem mstep_idempotent {m V : ℕ} {s s1 s2 : HMMState m V} {lam : ℚ}
    (h1 : M_step s lam = Except.ok s1) (h2 : M_step s1 lam = Except.ok s2) :
    s2.A = s1.A ∧ s2.B = s1.B := by
  obtain ⟨hA1, hB1, hac, hbc, -, huni, -, -⟩ := Mstep_ok_spec h1
  obtain ⟨hA2, hB2, -, -, -, -, -, -⟩ := Mstep_ok_spec h2
  constructor
  · rw [hA2, hac, huni, hA1]
  · rw [hB2, hbc, hB1]

/-- Witness for C8: from the bigram state `stC` with `λ = 0`, `M_step`
returns `stC1`, and a second `M_step` on `stC1` returns the same matrices. -/
theorem mstep_idempotent_witness :
    M_step stC 0 = Except.ok stC1 ∧ M_step stC1 0 = Except.ok stC1 ∧
      (stC1.A = stC1.A ∧ stC1.B = stC1.B) :=
  ⟨Mstep_stC_eval, Mstep_stC1_eval, mstep_idempotent Mstep_stC_eval Mstep_stC1_eval⟩

/-- Counterexample for C6.  In unigram mode `M_step` builds a single softmax
row and replicates it into every row of `A`, including row `eos_t`, and
never re-zeroes that row: on the state `stU` it returns normally with
`A[eos_t, 0] = (1 + 1e-10) / (1 + 2e-10) ≠ 0`, so the structural zeros are
not re-imposed before returning, contrary to the claim. -/
theorem mstep_unigram_eos_row_nonzero :
    M_step stU 0 = Except.ok stU1 ∧ stU1.A (eosT 1) 0 ≠ 0 := by
  refine ⟨Mstep_stU_eval, ?_⟩
  show AnewUnigram 0 stU.Acounts (eosT 1) 0 ≠ 0
  simp only [AnewUnigram, unigramWgt, sumFin3, stU]
  norm_num [bosT, eosT, Fin.ext_iff, epsQ]

/-- Claim C6, amended.  When `M_step` returns normally, every ordinary row of
`A` sums to 1 within the asserted `allclose` tolerance `1e-5 + 1e-8` (in
exact arithmetic the bigram branch smooths the `bos_t` column before zeroing
it, so the sum is `1 - λ/S`, not exactly 1), every ordinary row of `B` sums
to exactly 1, the `bos_t` column of `A` and the `eos_t`/`bos_t` rows of `B`
are structural zeros, and in bigram mode row `eos_t` of `A` is zero as well
(in unigram mode it is not re-zeroed, see the counterexample). -/
theorem mstep_postconditions {m V : ℕ} {s s2 : HMMState m V} {lam : ℚ}
    (h : M_step s lam = Except.ok s2) :
    (∀ t : Fin (m + 2), t.val < m →
      |(∑ y, s2.A t y) - 1| ≤ tolClose ∧ (∑ w, s2.B t w) = 1) ∧
    (∀ x, s2.A x (bosT m) = 0) ∧
    (∀ w, s2.B (eosT m) w = 0 ∧ s2.B (bosT m) w = 0) ∧
    (s.unigram = false → ∀ y, s2.A (eosT m) y = 0) :=
  ⟨Mstep_ok_rowsums h, Mstep_ok_A_bos h, Mstep_ok_B_rows h,
    fun hu => Mstep_ok_A_eos_bigram h hu⟩

/-- Witness for C6: the normal return on `stC` satisfies the amended
postconditions at the ordinary row 0. -/
theorem mstep_postconditions_witness :
    M_step stC 0 = Except.ok stC1 ∧
      |(∑ y, stC1.A 0 y) - 1| ≤ tolClose ∧ (∑ w, stC1.B 0 w) = 1 ∧
      stC1.A 0 (bosT 1) = 0 :=
  ⟨Mstep_stC_eval,
    ((mstep_postconditions Mstep_stC_eval).1 0 (by decide)).1,
    ((mstep_postconditions Mstep_stC_eval).1 0 (by decide)).2,
    (mstep_postconditions Mstep_stC_eval).2.1 0⟩

/-- Counterexample for C4.  Immediately after construction, row `eos_t` of
`A` is a full softmax row, not zero: `init_params` only forces the `bos_t`
column to `-inf` before the softmax.  With all random logits drawn as 0
(every weight 1, a legal draw of `0.01 * torch.rand`), in bigram mode
`A[eos_t, 0] = 1/2`. -/
theorem init_eos_row_nonzero : initA false Wones (eosT 1) 0 ≠ 0 := by
  simp only [initA, Wones, Bool.false_eq_true, if_false, sumFin3]
  norm_num [bosT, eosT, Fin.ext_iff]

/-- Claim C4, amended.  At every externally visible state -- after
construction with any random weights, and after every normally returning
`M_step`, in both modes -- column `bos_t` of `A` is exactly 0 and rows
`bos_t`, `eos_t` of `B` are exactly 0; row `eos_t` of `A` is additionally 0
after every bigram-mode `M_step`, but not after construction nor after a
unigram-mode `M_step` (see the counterexample). -/
theorem structural_zeros_visible_states {m V : ℕ} (uni : Bool)
    (WA : Fin (m + 2) → Fin (m + 2) → ℚ) (WB : Fin (m + 2) → Fin V → ℚ)
    {s s2 : HMMState m V} {lam : ℚ} (h : M_step s lam = Except.ok s2) :
    (∀ x, initA uni WA x (bosT m) = 0) ∧
    (∀ w, initB WB (eosT m) w = 0 ∧ initB WB (bosT m) w = 0) ∧
    (∀ x, s2.A x (bosT m) = 0) ∧
    (∀ w, s2.B (eosT m) w = 0 ∧ s2.B (bosT m) w = 0) ∧
    (s.unigram = false → ∀ y, s2.A (eosT m) y = 0) := by
  refine ⟨?_, ?_, Mstep_ok_A_bos h, Mstep_ok_B_rows h,
    fun hu => Mstep_ok_A_eos_bigram h hu⟩
  · intro x
    cases uni <;> simp [initA]
  · intro w
    constructor
    · simp only [initB]
      rw [if_pos]
      simp [eosT]
    · simp only [initB]
      rw [if_pos]
      show m ≤ (bosT m).val
      simp [bosT]

/-- Witness for C4: concrete initialization weights and the normal `M_step`
return on `stC` instantiate the amended invariants. -/
theorem structural_zeros_visible_states_witness :
    M_step stC 0 = Except.ok stC1 ∧ initA false Wones 0 (bosT 1) = 0 ∧
      initB WonesB (eosT 1) 0 = 0 ∧ stC1.A 0 (bosT 1) = 0 :=
  ⟨Mstep_stC_eval,
    (structural_zeros_visible_states false Wones WonesB Mstep_stC_eval).1 0,
    ((structural_zeros_visible_states false Wones WonesB Mstep_stC_eval).2.1 0).1,
    (structural_zeros_visible_states false Wones WonesB Mstep_stC_eval).2.2.1 0⟩

/-- Claim C5.  For a fully tagged sentence, `logprob` is claimed to return
exactly the log-probability of the given tagged path.  But `logprob` calls
`forward_pass`, which extracts only the word ids (`isent[1:-1]`) and never
consults the tags, so it returns the marginal over all taggings.  On the
fully tagged one-word sentence `isentTagged` under `Ac5`/`Bc5`, the
hand-computed path probability is `1/2` while `logprob` returns (the
exponential of) the marginal, which is close to 1 -- the docstring's promise
that only a "not fully tagged" sentence is marginalized is broken. -/
theorem logprob_ignores_tags :
    logprobExp Ac5 Bc5 isentTagged ≠ pathScore Ac5 Bc5 [0] [0] ∧
      pathScore Ac5 Bc5 [0] [0] = 1 / 2 := by
  have h4 : List.finRange (2 + 2) = [0, 1, 2, 3] := by decide
  have hpath : pathScore Ac5 Bc5 [0] [0] = 1 / 2 := by
    simp only [pathScore, pathScoreFrom, Bat]
    norm_num [Ac5, Bc5, bosT, eosT, Fin.ext_iff]
  refine ⟨?_, hpath⟩
  rw [hpath]
  show forwardZ Ac5 Bc5 (interiorWords isentTagged) ≠ 1 / 2
  have hw : interiorWords isentTagged = [0] := rfl
  rw [hw]
  have hv0 : ((0 : Fin (2 + 2)) : ℕ) = 0 := rfl
  have hv1 : ((1 : Fin (2 + 2)) : ℕ) = 1 := rfl
  have hv2 : ((2 : Fin (2 + 2)) : ℕ) = 2 := rfl
  have hv3 : ((3 : Fin (2 + 2)) : ℕ) = 3 := rfl
  simp only [forwardZ, fwdStep, maxVec, List.foldl_cons, List.foldl_nil, h4, sumFin4]
  norm_num [Ac5, Bc5, Bat, epsQ, bosT, eosT, Fin.ext_iff, max_def, hv0, hv1, hv2, hv3]

lemma forbZero_bumpA {m V : ℕ} {s : HMMState m V} (h : forbZero s) {i j : Fin (m + 2)}
    (hj : j ≠ bosT m) (hi : i ≠ eosT m) (d : ℚ) :
    forbZero { s with Acounts := bump s.Acounts i j d } := by
  obtain ⟨h1, h2, h3, h4⟩ := h
  refine ⟨fun x => ?_, fun y => ?_, h3, h4⟩
  · show bump s.Acounts i j d x (bosT m) = 0
    rw [bump, if_neg (by rintro ⟨-, hbj⟩; exact hj hbj.symm)]
    exact h1 x
  · show bump s.Acounts i j d (eosT m) y = 0
    rw [bump, if_neg (by rintro ⟨hei, -⟩; exact hi hei.symm)]
    exact h2 y

lemma forbZero_bumpB {m V : ℕ} {s : HMMState m V} (h : forbZero s) {t : Fin (m + 2)}
    (ht1 : t ≠ eosT m) (ht2 : t ≠ bosT m) (w : Fin V) (d : ℚ) :
    forbZero { s with Bcounts := bump s.Bcounts t w d } := by
  obtain ⟨h1, h2, h3, h4⟩ := h
  refine ⟨h1, h2, fun v => ?_, fun v => ?_⟩
  · show bump s.Bcounts t w d (eosT m) v = 0
    rw [bump, if_neg (by rintro ⟨het, -⟩; exact ht1 het.symm)]
    exact h3 v
  · show bump s.Bcounts t w d (bosT m) v = 0
    rw [bump, if_neg (by rintro ⟨hbt, -⟩; exact ht2 hbt.symm)]
    exact h4 v

lemma ordinary_ne_eos {m : ℕ} {tg : ℕ} (h : tg < m) (hlt : tg < m + 2) :
    (⟨tg, hlt⟩ : Fin (m + 2)) ≠ eosT m := by
  intro he
  have := congrArg Fin.val he
  simp [eosT] at this
  omega

lemma ordinary_ne_bos {m : ℕ} {tg : ℕ} (h : tg < m) (hlt : tg < m + 2) :
    (⟨tg, hlt⟩ : Fin (m + 2)) ≠ bosT m := by
  intro he
  have := congrArg Fin.val he
  simp [bosT] at this
  omega

lemma eStepTrans_forb {m V : ℕ} {s : HMMState m V} (mult : ℚ) {pt : Option ℕ} {tg : ℕ}
    (hf : forbZero s) (hp : ∀ pg, pt = some pg → pg ≠ m) (htg : tg < m) :
    forbZero (eStepTrans mult pt tg s).1 := by
  cases pt with
  | none => exact hf
  | some pg =>
    simp only [eStepTrans]
    split
    · next hrange =>
      exact forbZero_bumpA hf (ordinary_ne_bos htg hrange.2)
        (by
          intro he
          have hv := congrArg Fin.val he
          simp [eosT] at hv
          exact hp pg rfl hv) mult
    · exact hf

lemma eStepLoop_forb {m V : ℕ} (mult : ℚ) :
    ∀ (l : List (ℕ × Option ℕ)) (s : HMMState m V),
      (∀ p ∈ l.head?, ∀ tv, p.2 = some tv → tv ≠ m) →
      (∀ p ∈ l.tail.dropLast, ∀ tv, p.2 = some tv → tv < m) →
      forbZero s → forbZero (eStepLoop mult l s).1 := by
  intro l
  induction l with
  | nil => exact fun s _ _ hf => hf
  | cons a tl ih =>
    intro s hhead hint hf
    match tl with
    | [] => exact hf
    | [c] => exact hf
    | (w, t) :: r :: rest =>
      obtain ⟨aw, apt⟩ := a
      have hdl : ((w, t) :: r :: rest).dropLast = (w, t) :: (r :: rest).dropLast := rfl
      have hcur : ∀ tv, t = some tv → tv < m := by
        intro tv htv
        exact hint (w, t) (by rw [List.tail_cons, hdl]; exact List.mem_cons_self _ _) tv htv
      have hihead : ∀ p ∈ ((w, t) :: r :: rest).head?, ∀ tv, p.2 = some tv → tv ≠ m := by
        intro p hp tv htv
        simp only [List.head?_cons, Option.mem_some_iff] at hp
        subst hp
        have := hcur tv htv
        omega
      have hiint : ∀ p ∈ ((w, t) :: r :: rest).tail.dropLast, ∀ tv, p.2 = some tv → tv < m := by
        intro p hp
        simp only [List.tail_cons] at hp
        refine hint p ?_
        rw [List.tail_cons, hdl]
        exact List.mem_cons_of_mem _ hp
      have hpg : ∀ pg, apt = some pg → pg ≠ m := by
        intro pg hpg2
        exact hhead (aw, apt) (by simp) pg hpg2
      cases t with
      | none =>
        show forbZero (eStepLoop mult ((aw, apt) :: (w, none) :: r :: rest) s).1
        simp only [eStepLoop]
        exact ih s hihead hiint hf
      | some tg =>
        have htg : tg < m := hcur tg rfl
        show forbZero (eStepLoop mult ((aw, apt) :: (w, some tg) :: r :: rest) s).1
        simp only [eStepLoop]
        by_cases hw : w < V
        · rw [dif_pos hw, dif_pos (show tg < m + 2 by omega)]
          have hfB : forbZero ({ s with
              Bcounts := bump s.Bcounts ⟨tg, by omega⟩ ⟨w, hw⟩ mult } : HMMState m V) :=
            forbZero_bumpB hf (ordinary_ne_eos htg (by omega))
              (ordinary_ne_bos htg (by omega)) _ mult
          have hfT := eStepTrans_forb mult hfB hpg htg
          cases hTr : (eStepTrans mult apt tg ({ s with
              Bcounts := bump s.Bcounts ⟨tg, by omega⟩ ⟨w, hw⟩ mult } : HMMState m V)).2 with
          | error msg =>
            simp only [hTr]
            exact hfT
          | ok u =>
            simp only [hTr]
            exact ih _ hihead hiint hfT
        · rw [dif_neg hw]
          have hfT := eStepTrans_forb mult hf hpg htg
          cases hTr : (eStepTrans mult apt tg s).2 with
          | error msg =>
            simp only [hTr]
            exact hfT
          | ok u =>
            simp only [hTr]
            exact ih _ hihead hiint hfT

lemma bos_ne_eos {m : ℕ} : bosT m ≠ eosT m := by
  intro h
  have hv := congrArg Fin.val h
  simp [bosT, eosT] at hv

lemma eos_ne_bos {m : ℕ} : eosT m ≠ bosT m := fun h => bos_ne_eos h.symm

lemma eStepLast_forb {m V : ℕ} (mult : ℚ) {lp : Option (ℕ × Option ℕ)} {s : HMMState m V}
    (hf : forbZero s) (hl : ∀ p, lp = some p → ∀ tv, p.2 = some tv → tv < m) :
    forbZero (eStepLast mult lp s).1 := by
  cases lp with
  | none => exact hf
  | some p =>
    obtain ⟨wp, tp⟩ := p
    cases tp with
    | none => exact hf
    | some tgl =>
      have htgl : tgl < m := hl (wp, some tgl) rfl tgl rfl
      simp only [eStepLast]
      split
      · exact forbZero_bumpA hf eos_ne_bos (ordinary_ne_eos htgl (by omega)) mult
      · exact hf

/-- Claim C7.  After `E_step` on a well-formed sentence -- BOS bracket at
position 0 and every interior supervised tag ordinary -- the structurally
impossible cells of the accumulators are still exactly 0: no hard count is
ever added to column `bos_t` or row `eos_t` of `A_counts`, nor to the
`eos_t`/`bos_t` rows of `B_counts`. -/
theorem estep_preserves_structural_zeros {m V : ℕ} (isent : List (ℕ × Option ℕ))
    (mult : ℚ) (s : HMMState m V)
    (hhead : ∀ p ∈ isent.head?, p.2 = some (m + 1))
    (hint : ∀ p ∈ isent.tail.dropLast, ∀ tv, p.2 = some tv → tv < m)
    (hf : forbZero s) :
    forbZero (E_step isent mult s).1 := by
  cases isent with
  | nil => exact hf
  | cons x0 xs =>
    by_cases hm : mult ≤ 0
    · simp only [E_step, if_pos hm]
      exact hf
    · have hx0 : x0.2 = some (m + 1) := hhead x0 (by simp)
      match xs, hint with
      | [], _ =>
        simp only [E_step, if_neg hm]
        exact hf
      | [y1], _ =>
        simp only [E_step, if_neg hm]
        exact hf
      | y1 :: y2 :: rest, hint =>
        have hy1mem : y1 ∈ (x0 :: y1 :: y2 :: rest).tail.dropLast := by
          rw [List.tail_cons]
          exact List.mem_cons_self _ _
        have hloopHead :
            ∀ p ∈ (x0 :: y1 :: y2 :: rest).head?, ∀ tv, p.2 = some tv → tv ≠ m := by
          intro p hp tv htv
          simp only [List.head?_cons, Option.mem_some_iff] at hp
          subst hp
          rw [hx0] at htv
          have hveq : tv = m + 1 := (Option.some_inj.mp htv).symm
          omega
        have hlast : ∀ p, ((y1 :: y2 :: rest).dropLast).getLast? = some p →
            ∀ tv, p.2 = some tv → tv < m := by
          intro p hp tv htv
          refine hint p ?_ tv htv
          rw [List.tail_cons]
          exact List.mem_of_mem_getLast? (Option.mem_def.mpr hp)
        obtain ⟨w1, t1⟩ := y1
        simp only [E_step, if_neg hm]
        set s0 : HMMState m V :=
          (if s.hasCounts = true then s
           else { s with Acounts := fun _ _ => 0, Bcounts := fun _ _ => 0, hasCounts := true })
          with hs0
        have hfs0 : forbZero s0 := by
          rw [hs0]
          split
          · exact hf
          · exact ⟨fun _ => rfl, fun _ => rfl, fun _ => rfl, fun _ => rfl⟩
        cases t1 with
        | none =>
          have hfL := eStepLoop_forb mult (x0 :: (w1, none) :: y2 :: rest) s0 hloopHead hint hfs0
          cases hL : (eStepLoop mult (x0 :: (w1, none) :: y2 :: rest) s0).2 with
          | error msg =>
            simp only [hL]
            exact hfL
          | ok u =>
            simp only [hL]
            exact eStepLast_forb mult hfL hlast
        | some tg =>
          have htg : tg < m := hint (w1, some tg) hy1mem tg rfl
          simp only [dif_pos (show tg < m + 2 by omega)]
          set s1 : HMMState m V :=
            { s0 with Acounts := bump s0.Acounts (bosT m) ⟨tg, by omega⟩ mult } with hs1
          have hfs1 : forbZero s1 := by
            rw [hs1]
            exact forbZero_bumpA hfs0 (ordinary_ne_bos htg (by omega)) bos_ne_eos mult
          have hfL := eStepLoop_forb mult (x0 :: (w1, some tg) :: y2 :: rest) s1 hloopHead hint hfs1
          cases hL : (eStepLoop mult (x0 :: (w1, some tg) :: y2 :: rest) s1).2 with
          | error msg =>
            simp only [hL]
            exact hfL
          | ok u =>
            simp only [hL]
            exact eStepLast_forb mult hfL hlast

/-- Witness for C7: the fully supervised one-word sentence `isentSup` is
well formed, and after `E_step` on the zeroed accumulators every
structurally impossible cell is still 0. -/
theorem estep_preserves_structural_zeros_witness :
    (∀ p ∈ isentSup.head?, p.2 = some (1 + 1)) ∧
      ((E_step isentSup 1 st0).1.Acounts 0 (bosT 1) = 0 ∧
        (E_step isentSup 1 st0).1.Acounts (eosT 1) 0 = 0 ∧
        (E_step isentSup 1 st0).1.Bcounts (eosT 1) 0 = 0 ∧
        (E_step isentSup 1 st0).1.Bcounts (bosT 1) 0 = 0) := by
  have hhead : ∀ p ∈ isentSup.head?, p.2 = some (1 + 1) := by decide
  have hint : ∀ p ∈ isentSup.tail.dropLast, ∀ tv, p.2 = some tv → tv < 1 := by
    intro p hp tv htv
    have hp0 : p = (0, some 0) := by simpa [isentSup] using hp
    rw [hp0] at htv
    simp at htv
    omega
  have hf : forbZero st0 := ⟨fun _ => rfl, fun _ => rfl, fun _ => rfl, fun _ => rfl⟩
  have hmain := estep_preserves_structural_zeros isentSup 1 st0 hhead hint hf
  exact ⟨hhead, hmain.1 0, hmain.2.1 0, hmain.2.2.1 0, hmain.2.2.2 0⟩

lemma mem_validTags {m : ℕ} {t : Fin (m + 2)} :
    t ∈ validTags m ↔ t ≠ bosT m ∧ t ≠ eosT m := by
  simp [validTags, List.mem_filter, List.mem_finRange]

lemma chainScore_snoc {m V : ℕ} (A : Fin (m + 2) → Fin (m + 2) → ℚ)
    (B : Fin (m + 2) → Fin V → ℚ) :
    ∀ (ws : List ℕ) (ts : List (Fin (m + 2))) (prev : Fin (m + 2)) (w : ℕ) (t : Fin (m + 2)),
      ts.length = ws.length →
      chainScore A B prev (ws ++ [w]) (ts ++ [t]) =
        chainScore A B prev ws ts * A (ts.getLastD prev) t * Bat B t w := by
  intro ws
  induction ws with
  | nil =>
    intro ts prev w t hl
    match ts, hl with
    | [], _ =>
      simp only [List.nil_append, chainScore, List.getLastD_nil]
      ring
  | cons w0 ws0 ih =>
    intro ts prev w t hl
    match ts, hl with
    | t0 :: ts0, hl =>
      have hl0 : ts0.length = ws0.length := by simpa using hl
      simp only [List.cons_append, chainScore, List.getLastD_cons, List.append_eq]
      rw [ih ts0 t0 w t hl0]
      ring

lemma pathScoreFrom_eq_chain {m V : ℕ} (A : Fin (m + 2) → Fin (m + 2) → ℚ)
    (B : Fin (m + 2) → Fin V → ℚ) :
    ∀ (ws : List ℕ) (ts : List (Fin (m + 2))) (prev : Fin (m + 2)),
      ts.length = ws.length →
      pathScoreFrom A B prev ws ts =
        chainScore A B prev ws ts * A (ts.getLastD prev) (eosT m) := by
  intro ws
  induction ws with
  | nil =>
    intro ts prev hl
    match ts, hl with
    | [], _ => simp [pathScoreFrom, chainScore]
  | cons w0 ws0 ih =>
    intro ts prev hl
    match ts, hl with
    | t0 :: ts0, hl =>
      have hl0 : ts0.length = ws0.length := by simpa using hl
      simp only [pathScoreFrom, chainScore, List.getLastD_cons]
      rw [ih ts0 t0 hl0]
      ring

lemma vBest_fold_fst {m V : ℕ} (A : Fin (m + 2) → Fin (m + 2) → ℚ)
    (B : Fin (m + 2) → Fin V → ℚ) (ap : Fin (m + 2) → ℚ) (w : ℕ) (t : Fin (m + 2)) :
    ∀ (l : List (Fin (m + 2))) (acc : ℚ × Option (Fin (m + 2))),
      (0 < acc.1 → ∃ s, 0 < A s t ∧ 0 < Bat B t w ∧ 0 < ap s) →
      0 < (l.foldl (vBestStep A B ap w t) acc).1 →
      ∃ s, 0 < A s t ∧ 0 < Bat B t w ∧ 0 < ap s := by
  intro l
  induction l with
  | nil => exact fun acc hacc h => hacc h
  | cons x xs ih =>
    intro acc hacc h
    refine ih (vBestStep A B ap w t acc x) ?_ h
    intro hpos
    simp only [vBestStep] at hpos
    split at hpos
    · next hcond => exact ⟨x, hcond.1, hcond.2.1, hcond.2.2.1⟩
    · exact hacc hpos

lemma vBest_fst_pos {m V : ℕ} {A : Fin (m + 2) → Fin (m + 2) → ℚ}
    {B : Fin (m + 2) → Fin V → ℚ} {ap : Fin (m + 2) → ℚ} {w : ℕ} {t : Fin (m + 2)}
    (h : 0 < (vBest A B ap w t).1) :
    ∃ s, 0 < A s t ∧ 0 < Bat B t w ∧ 0 < ap s :=
  vBest_fold_fst A B ap w t (validTags m) (0, none) (fun hpos => absurd hpos (by norm_num)) h

lemma vEos_fold_snd {m : ℕ} (A : Fin (m + 2) → Fin (m + 2) → ℚ) (an : Fin (m + 2) → ℚ) :
    ∀ (l : List (Fin (m + 2))) (acc : ℚ × Option (Fin (m + 2))),
      (∀ s, acc.2 = some s → 0 < A s (eosT m) ∧ 0 < an s) →
      ∀ s, (l.foldl (vEosStep A an) acc).2 = some s → 0 < A s (eosT m) ∧ 0 < an s := by
  intro l
  induction l with
  | nil => exact fun acc hacc s hs => hacc s hs
  | cons x xs ih =>
    intro acc hacc s hs
    refine ih (vEosStep A an acc x) ?_ s hs
    intro s2 hs2
    simp only [vEosStep] at hs2
    split at hs2
    · next hcond =>
      have hx : x = s2 := by simpa using hs2
      subst hx
      exact ⟨hcond.1, hcond.2.1⟩
    · exact hacc s2 hs2

lemma vEosBest_snd_some {m : ℕ} {A : Fin (m + 2) → Fin (m + 2) → ℚ}
    {an : Fin (m + 2) → ℚ} {s : Fin (m + 2)} (h : (vEosBest A an).2 = some s) :
    0 < A s (eosT m) ∧ 0 < an s :=
  vEos_fold_snd A an (validTags m) (0, none) (fun _ hs => by simp at hs) s h

lemma vRun_fst {m V : ℕ} (A : Fin (m + 2) → Fin (m + 2) → ℚ) (B : Fin (m + 2) → Fin V → ℚ)
    (w1 : ℕ) (rest : List ℕ) : (vRun A B w1 rest).1 = vAlphaRun A B w1 rest := by
  have haux : ∀ (l : List ℕ) (ap : Fin (m + 2) → ℚ)
      (bps : List (Fin (m + 2) → Option (Fin (m + 2)))),
      (l.foldl (fun st w => ((vStep A B st.1 w).1, st.2 ++ [(vStep A B st.1 w).2]))
        (ap, bps)).1 = l.foldl (fun a w => (vStep A B a w).1) ap := by
    intro l
    induction l with
    | nil => intro ap bps; rfl
    | cons x xs ih => intro ap bps; exact ih _ _
  exact haux rest _ _

lemma vAlphaRun_snoc {m V : ℕ} (A : Fin (m + 2) → Fin (m + 2) → ℚ)
    (B : Fin (m + 2) → Fin V → ℚ) (w1 : ℕ) (rest : List ℕ) (w : ℕ) :
    vAlphaRun A B w1 (rest ++ [w]) = (vStep A B (vAlphaRun A B w1 rest) w).1 := by
  simp [vAlphaRun, List.foldl_append]

lemma vAlphaRun_pos {m V : ℕ} (A : Fin (m + 2) → Fin (m + 2) → ℚ)
    (B : Fin (m + 2) → Fin V → ℚ) (w1 : ℕ) :
    ∀ (rest : List ℕ) (sf : Fin (m + 2)), 0 < vAlphaRun A B w1 rest sf →
      ∃ ts0 : List (Fin (m + 2)),
        (ts0 ++ [sf]).length = rest.length + 1 ∧
        (∀ t ∈ ts0 ++ [sf], t ∈ validTags m) ∧
        0 < chainScore A B (bosT m) (w1 :: rest) (ts0 ++ [sf]) := by
  intro rest
  induction rest using List.reverseRecOn with
  | nil =>
    intro sf hpos
    simp only [vAlphaRun, List.foldl_nil, vAlpha1] at hpos
    split at hpos
    · next hc =>
      refine ⟨[], by simp, ?_, ?_⟩
      · intro t ht
        have : t = sf := by simpa using ht
        subst this
        exact hc.1
      · simp only [List.nil_append, chainScore, mul_one]
        exact mul_pos hc.2.1 hc.2.2
    · exact absurd hpos (by norm_num)
  | append_singleton rest w ih =>
    intro sf hpos
    rw [vAlphaRun_snoc] at hpos
    simp only [vStep] at hpos
    by_cases hsf : sf ∈ validTags m
    · rw [if_pos hsf] at hpos
      obtain ⟨s2, hA2, hB2, hap⟩ := vBest_fst_pos hpos
      obtain ⟨ts0, hlen, hmem, hchain⟩ := ih s2 hap
      refine ⟨ts0 ++ [s2], ?_, ?_, ?_⟩
      · simp only [List.length_append, List.length_cons, List.length_nil] at hlen ⊢
        omega
      · intro t ht
        rcases List.mem_append.mp ht with ht1 | ht2
        · exact hmem t (by simpa using ht1)
        · have : t = sf := by simpa using ht2
          subst this
          exact hsf
      · have hcons : w1 :: (rest ++ [w]) = (w1 :: rest) ++ [w] := by simp
        rw [hcons, chainScore_snoc A B (w1 :: rest) (ts0 ++ [s2]) (bosT m) w sf
          (by simp only [List.length_append, List.length_cons, List.length_nil] at hlen ⊢; omega),
          List.getLastD_concat]
        exact mul_pos (mul_pos hchain hA2) hB2
    · rw [if_neg hsf] at hpos
      exact absurd hpos (by norm_num)

/-- Claim C9.  If no candidate tag path (ordinary interior tags) reaches EOS
with positive probability under the current `A`, `B` -- every path is blocked
by a zero transition or emission -- then `viterbi_tagging` raises an error
for that sentence instead of returning a guessed or partial tagging: the EOS
backpointer stays `-1` and the backtracking loop raises `ValueError` at its
first step. -/
theorem viterbi_no_path_errors {m V : ℕ} (A : Fin (m + 2) → Fin (m + 2) → ℚ)
    (B : Fin (m + 2) → Fin V → ℚ) (ws : List ℕ)
    (h : ∀ ts : List (Fin (m + 2)), ts.length = ws.length →
      (∀ t ∈ ts, t ∈ validTags m) → pathScore A B ws ts = 0) :
    ∃ msg, viterbiTags A B ws = Except.error msg := by
  cases ws with
  | nil => exact ⟨"index out of range", rfl⟩
  | cons w1 rest =>
    have hnone : (vEosBest A (vRun A B w1 rest).1).2 = none := by
      cases hx : (vEosBest A (vRun A B w1 rest).1).2 with
      | none => rfl
      | some s =>
        exfalso
        obtain ⟨hAs, hans⟩ := vEosBest_snd_some hx
        rw [vRun_fst] at hans
        obtain ⟨ts0, hlen, hmem, hchain⟩ := vAlphaRun_pos A B w1 rest s hans
        have hp := h (ts0 ++ [s]) (by simpa using hlen) hmem
        rw [pathScore, pathScoreFrom_eq_chain A B (w1 :: rest) (ts0 ++ [s]) (bosT m)
          (by simpa using hlen), List.getLastD_concat] at hp
        exact absurd hp (ne_of_gt (mul_pos hchain hAs))
    refine ⟨"No valid path", ?_⟩
    show vBacktrack ((vRun A B w1 rest).2 ++ [vBpEos A (vRun A B w1 rest).1]).reverse
      (eosT m) [] = Except.error "No valid path"
    have hrev : ((vRun A B w1 rest).2 ++ [vBpEos A (vRun A B w1 rest).1]).reverse =
        vBpEos A (vRun A B w1 rest).1 :: (vRun A B w1 rest).2.reverse := by
      simp
    rw [hrev]
    simp only [vBacktrack, vBpEos, if_pos rfl, hnone]
    simp

/-- Witness for C9: under `Ac9`/`Bc9` nothing transitions into EOS, so the
single candidate path for the one-word sentence `[0]` scores 0 and viterbi
decoding fails with an error. -/
theorem viterbi_no_path_errors_witness :
    pathScore Ac9 Bc9 [0] [0] = 0 ∧
      (∃ msg, viterbiTags Ac9 Bc9 [0] = Except.error msg) := by
  have hblock : ∀ ts : List (Fin 3), ts.length = ([0] : List ℕ).length →
      (∀ t ∈ ts, t ∈ validTags 1) → pathScore Ac9 Bc9 [0] ts = 0 := by
    intro ts hlen hmem
    match ts, hlen with
    | [t], _ =>
      have ht : t ∈ validTags 1 := hmem t (by simp)
      have ht0 : t = 0 := by
        rcases mem_validTags.mp ht with ⟨h1, h2⟩
        apply Fin.ext
        have hv1 := Fin.val_ne_of_ne h1
        have hv2 := Fin.val_ne_of_ne h2
        simp only [bosT, eosT] at hv1 hv2
        simp only [Fin.val_zero]
        omega
      subst ht0
      simp only [pathScore, pathScoreFrom, Bat]
      norm_num [Ac9, Bc9, bosT, eosT, Fin.ext_iff]
  exact ⟨hblock [0] (by simp) (by decide), viterbi_no_path_errors Ac9 Bc9 [0] hblock⟩
